import Mathlib

/-!
# Verification of the seastore transactional buffer cache (`cache.h`)

A shallow embedding of the cache data model and operations of
`src/crimson/os/seastore/cache.h`: the extent index, the LRU, the
back-reference buffer keyed by journal sequence, the read paths
(`get_extent`, `get_extent_if_cached`, `read_extent`) and the dirty list
accessor `get_oldest_dirty_from`.  Machine integers are modelled as `Nat`
(no arithmetic in the claims overflows), futures are flattened to explicit
state passing (single-threaded cooperative shard model), and EPM reads are
recorded in an explicit log so that "issues a disk read" is observable.
-/

namespace Seastore


/-- Extent type tags (`extent_types_t`), the closed enumeration used by
the cache.  Only the constructors the cache logic inspects are needed. -/
inductive extent_types_t where
  | ROOT
  | LADDR_INTERNAL
  | LADDR_LEAF
  | OMAP_INNER
  | OMAP_LEAF
  | ONODE_BLOCK_STAGED
  | BACKREF_INTERNAL
  | BACKREF_LEAF
  | OBJECT_DATA_BLOCK
  | RETIRED_PLACEHOLDER
  | TEST_BLOCK
deriving DecidableEq, Repr

/-- Extent lifecycle states (`CachedExtent::extent_state_t`). -/
inductive extent_state_t where
  | INITIAL_WRITE_PENDING
  | MUTATION_PENDING
  | CLEAN_PENDING
  | CLEAN
  | DIRTY
  | INVALID
deriving DecidableEq, Repr

/-- Journal sequence (`journal_seq_t`): an ordered key with a distinguished
`JOURNAL_SEQ_NULL` that compares greater than every real sequence
(in the source `JOURNAL_SEQ_NULL = JOURNAL_SEQ_MAX`). -/
inductive journal_seq_t where
  | null
  | seq (n : Nat)
deriving DecidableEq, Repr

/-- `operator<` on `journal_seq_t`; `null` is the maximum. -/
def jlt : journal_seq_t → journal_seq_t → Bool
  | .null, _ => false
  | .seq _, .null => true
  | .seq a, .seq b => a < b

/-- A cached extent (`CachedExtent`), reduced to the attributes the claims
inspect.  `eid` stands for the object identity (the C++ object address);
`io_wait` is the I/O latch: `true` while a read is in flight and waiters
park on the extent (`set_io_wait` / `complete_io`). -/
structure CachedExtent where
  eid : Nat
  paddr : Nat
  length : Nat
  etype : extent_types_t
  state : extent_state_t
  io_wait : Bool
  dirty_from : journal_seq_t
deriving DecidableEq, Repr

/-- `CachedExtent::is_clean()`: clean states, including the pending read
state (a `CLEAN_PENDING` extent is already handled by the LRU guards:
`touch_extent` fires on the miss path while the extent is still
`CLEAN_PENDING`, and the spec's cold-read scenario requires the extent to
be on the LRU afterwards). -/
def CachedExtent.is_clean (e : CachedExtent) : Bool :=
  e.state = extent_state_t.CLEAN || e.state = extent_state_t.CLEAN_PENDING

/-- `CachedExtent::is_placeholder()`. -/
def CachedExtent.is_placeholder (e : CachedExtent) : Bool :=
  e.etype = extent_types_t.RETIRED_PLACEHOLDER

/-! ## The LRU (`Cache::LRU`)

A byte-bounded queue over clean, non-placeholder extents; front of the
list is the eviction (LRU) end, back is the most-recently-used end, as in
`lru.push_back` / `lru.front()` of the source. -/

structure LRU where
  capacity : Nat
  contents : Nat
  lru : List CachedExtent
deriving DecidableEq, Repr

/-- `LRU(capacity)`: freshly constructed queue. -/
def LRU.init (capacity : Nat) : LRU := ⟨capacity, 0, []⟩

/-- The loop of `LRU::trim_to_capacity`: while `contents > capacity`,
remove the front extent (unlink, subtract its length). -/
def LRU.trim_go (capacity : Nat) : List CachedExtent → Nat → List CachedExtent × Nat
  | [], c => ([], c)
  | f :: r, c => if capacity < c then LRU.trim_go capacity r (c - f.length) else (f :: r, c)

/-- `LRU::trim_to_capacity`. -/
def LRU.trim_to_capacity (s : LRU) : LRU :=
  let p := LRU.trim_go s.capacity s.lru s.contents
  { s with lru := p.1, contents := p.2 }

/-- `LRU::add_to_lru`: link at the MRU end if not linked, then trim. -/
def LRU.add_to_lru (s : LRU) (e : CachedExtent) : LRU :=
  let s1 := if e ∈ s.lru then s
            else { s with contents := s.contents + e.length, lru := s.lru ++ [e] }
  LRU.trim_to_capacity s1

/-- `LRU::remove_from_lru`: unlink and subtract the length if linked. -/
def LRU.remove_from_lru (s : LRU) (e : CachedExtent) : LRU :=
  if e ∈ s.lru then { s with lru := s.lru.erase e, contents := s.contents - e.length }
  else s

/-- `LRU::move_to_top`: unlink (subtracting the length) if linked, then
`add_to_lru`. -/
def LRU.move_to_top (s : LRU) (e : CachedExtent) : LRU :=
  if e ∈ s.lru then
    LRU.add_to_lru { s with lru := s.lru.erase e, contents := s.contents - e.length } e
  else
    LRU.add_to_lru s e

/-- `LRU::clear`: iterate over the list removing every extent. -/
def LRU.clear (s : LRU) : LRU :=
  s.lru.foldl LRU.remove_from_lru s

/-- `Cache::touch_extent`: reorder on the LRU only for clean,
non-placeholder extents. -/
def touch_extent (s : LRU) (e : CachedExtent) : LRU :=
  if e.is_clean && !e.is_placeholder then LRU.move_to_top s e else s

/-- The LRU bookkeeping invariant of spec property P2: the extents on the
list are pairwise distinct objects, the byte counter equals the sum of
their lengths, and that sum is bounded by the capacity. -/
def LRU.inv (s : LRU) : Prop :=
  s.lru.Nodup ∧ s.contents = (s.lru.map CachedExtent.length).sum ∧ s.contents ≤ s.capacity

/-- Sample extents for concrete witnesses. -/
def ext_a : CachedExtent :=
  ⟨0, 4096, 4096, .OBJECT_DATA_BLOCK, .CLEAN, false, .null⟩

def ext_b : CachedExtent :=
  ⟨1, 8192, 4096, .OBJECT_DATA_BLOCK, .CLEAN, false, .null⟩

/-! ## Back-reference buffer, transactions and the full cache state -/

/-- `backref_buf_entry_t`: a reverse mapping entry. -/
structure backref_buf_entry_t where
  paddr : Nat
  laddr : Nat
  len : Nat
  btype : extent_types_t
  seq : journal_seq_t
deriving DecidableEq, Repr

/-- `backref_buf_t`: one journal batch of back-reference entries. -/
structure backref_buf_t where
  backrefs : List backref_buf_entry_t
deriving DecidableEq, Repr

/-- `backref_cache_t`: `std::map<journal_seq_t, backref_buf_t>`, embedded
as an association list in ascending key order (sortedness is carried as a
hypothesis where a theorem needs it). -/
structure backref_cache_t where
  backrefs_by_seq : List (journal_seq_t × backref_buf_t)
deriving DecidableEq, Repr

/-- Modelled from the spec: the `Transaction` object (its header is not
part of the sources under study; §3 of the spec lists a read set, a write
set and a retired set).  Sets hold extent identities (`eid`). -/
structure Txn where
  tid : Nat
  readSet : List Nat
  writeSet : List Nat
  retiredSet : List Nat
deriving DecidableEq, Repr

/-- The shard-local cache state: the live-extent store (`eid`-keyed), the
extent index (`Cache::extents`, a set of eids at distinct paddrs), the LRU
bookkeeping, the dirty list, the open transactions, the back-reference
buffer, a log of reads submitted to the EPM, and the allocator for fresh
extent identities. -/
structure CacheState where
  store : List CachedExtent
  index : List Nat
  lruList : List Nat
  lruContents : Nat
  lruCapacity : Nat
  dirty : List CachedExtent
  txns : List Txn
  backref_buffer : Option backref_cache_t
  epmReads : List (Nat × Nat)
  nextId : Nat
deriving DecidableEq, Repr

/-- `Cache::trim_backref_bufs(trim_to)`: when the buffer exists and is
non-empty, assert that its maximum key (the last of the ascending map) is
`>= trim_to`, then erase every batch from the beginning up to
`upper_bound(trim_to)`, i.e. every batch whose key is `<= trim_to`.
`none` models the assertion firing. -/
def trim_backref_bufs (trim_to : journal_seq_t) (s : CacheState) : Option CacheState :=
  match s.backref_buffer with
  | none => some s
  | some bc =>
    match bc.backrefs_by_seq.getLast? with
    | none => some s
    | some kv =>
      if jlt kv.1 trim_to then none
      else some { s with backref_buffer := some (backref_cache_t.mk
        (bc.backrefs_by_seq.dropWhile (fun kv2 => !(jlt trim_to kv2.1)))) }

/-- The all-empty cache state. -/
def s_empty : CacheState :=
  ⟨[], [], [], 0, 4096, [], [], none, [], 0⟩

/-- A state whose back-reference buffer holds batches at seqs 10, 20, 30. -/
def s_backref : CacheState :=
  { s_empty with backref_buffer := some ⟨[
      (.seq 10, ⟨[⟨4096, 1, 4096, .OBJECT_DATA_BLOCK, .seq 10⟩]⟩),
      (.seq 20, ⟨[⟨8192, 2, 4096, .OBJECT_DATA_BLOCK, .seq 20⟩]⟩),
      (.seq 30, ⟨[⟨12288, 3, 4096, .OBJECT_DATA_BLOCK, .seq 30⟩]⟩)]⟩ }

/-- `Cache::get_oldest_dirty_from()`: `nullopt` when the dirty list is
empty, and also when the head's `dirty_from` is `JOURNAL_SEQ_NULL`;
otherwise the head's `dirty_from`. -/
def get_oldest_dirty_from (s : CacheState) : Option journal_seq_t :=
  match s.dirty with
  | [] => none
  | e :: _ =>
    if e.dirty_from = journal_seq_t.null then none else some e.dirty_from

/-- A dirty list whose head (the root, as installed by replay) carries
`dirty_from = JOURNAL_SEQ_NULL`. -/
def s_dirty_null : CacheState :=
  { s_empty with dirty := [⟨5, 0, 4096, .ROOT, .DIRTY, false, .null⟩] }

/-! ## The read paths: `query_cache`, `read_extent`, `get_extent`,
`get_extent_if_cached` -/

/-- Errors at the cache boundary: an EPM read failure
(`crimson::ct_error::input_output_error`), or a failed `ceph_assert` /
`assert` (debug-build abort). -/
inductive CacheError where
  | IoError
  | AssertionFailed
deriving DecidableEq, Repr

/-- Find an extent by identity in a list of extents. -/
def findEid (l : List CachedExtent) (i : Nat) : Option CachedExtent :=
  l.find? (fun e => e.eid == i)

/-- Look an extent up in the live-extent store by identity. -/
def storeGet (s : CacheState) (i : Nat) : Option CachedExtent :=
  findEid s.store i

/-- `get_length()` of the extent with identity `i` (0 if absent). -/
def extLen (s : CacheState) (i : Nat) : Nat :=
  (storeGet s i).elim 0 CachedExtent.length

/-- `get_paddr()` of the extent with identity `i` (0 if absent). -/
def extPaddrOf (s : CacheState) (i : Nat) : Nat :=
  (storeGet s i).elim 0 CachedExtent.paddr

/-- `Cache::query_cache` stripped of its hit/access statistics counters:
`extents.find_offset(offset)`, walking the index. -/
def query_cache_go (s : CacheState) (offset : Nat) : List Nat → Option CachedExtent
  | [] => none
  | i :: rest =>
    match storeGet s i with
    | some e => if e.paddr == offset then some e else query_cache_go s offset rest
    | none => query_cache_go s offset rest

def query_cache (s : CacheState) (offset : Nat) : Option CachedExtent :=
  query_cache_go s offset s.index

/-- Pointwise state update of the extent with identity `i`. -/
def updState (i : Nat) (st : extent_state_t) (e : CachedExtent) : CachedExtent :=
  if e.eid == i then { e with state := st } else e

/-- Pointwise latch update of the extent with identity `i`. -/
def updIoWait (i : Nat) (b : Bool) (e : CachedExtent) : CachedExtent :=
  if e.eid == i then { e with io_wait := b } else e

/-- Update the state of the extent with identity `i`. -/
def cs_set_state (i : Nat) (st : extent_state_t) (s : CacheState) : CacheState :=
  { s with store := s.store.map (updState i st) }

/-- Set or clear the I/O latch of the extent with identity `i`
(`set_io_wait` / `complete_io`). -/
def cs_set_io_wait (i : Nat) (b : Bool) (s : CacheState) : CacheState :=
  { s with store := s.store.map (updIoWait i b) }

/-- Modelled from the spec: `Transaction::add_to_read_set` (the
transaction header is not among the sources; the spec's read set is the
set of extent references consulted). -/
def add_to_read_set (tid : Nat) (i : Nat) (s : CacheState) : CacheState :=
  { s with txns := s.txns.map (fun t =>
      if t.tid == tid then { t with readSet := i :: t.readSet } else t) }

/-- The `LRU::trim_to_capacity` loop over extent identities: lengths are
looked up through `lenOf`. -/
def lru_trim_go (capacity : Nat) (lenOf : Nat → Nat) : List Nat → Nat → List Nat × Nat
  | [], c => ([], c)
  | f :: r, c =>
    if capacity < c then lru_trim_go capacity lenOf r (c - lenOf f) else (f :: r, c)

/-- `LRU::move_to_top` on the shard state (identity-keyed twin of
`LRU.move_to_top`; the source class does not touch the extent index). -/
def cs_move_to_top (i : Nat) (s : CacheState) : CacheState :=
  let lenOf := extLen s
  let p0 := if i ∈ s.lruList then (s.lruList.erase i, s.lruContents - lenOf i)
            else (s.lruList, s.lruContents)
  let p1 := lru_trim_go s.lruCapacity lenOf (p0.1 ++ [i]) (p0.2 + lenOf i)
  { s with lruList := p1.1, lruContents := p1.2 }

/-- `Cache::touch_extent` on the shard state. -/
def cs_touch_extent (i : Nat) (s : CacheState) : CacheState :=
  match storeGet s i with
  | some e => if e.is_clean && !e.is_placeholder then cs_move_to_top i s else s
  | none => s

/-- `Cache::read_extent`: assert `state == CLEAN_PENDING`, `set_io_wait`,
submit the read to the EPM (logged in `epmReads`), then on success set
`CLEAN`, record the CRC and `complete_io`.  On an EPM `IoError` the
errorator's `pass_further` propagates the error with no further action on
the extent: note the absence of any `complete_io`/invalidatation on that
path. -/
def read_extent_st (i : Nat) (epmOk : Bool) (s : CacheState) :
    Except CacheError Nat × CacheState :=
  match storeGet s i with
  | some e =>
    if e.state == extent_state_t.CLEAN_PENDING then
      let s1 := cs_set_io_wait i true s
      let s2 := { s1 with epmReads := (e.paddr, e.length) :: s1.epmReads }
      if epmOk then
        (Except.ok i, cs_set_io_wait i false (cs_set_state i .CLEAN s2))
      else
        (Except.error CacheError.IoError, s2)
    else (Except.error CacheError.AssertionFailed, s)
  | none => (Except.error CacheError.AssertionFailed, s)

/-- The `on_cache` callback the transaction-scoped paths pass to
`get_extent`: `t.add_to_read_set(ret); touch_extent(ext);` — or nothing
for the transaction-less overload. -/
def on_cache_txn (tid : Option Nat) (i : Nat) (s : CacheState) : CacheState :=
  match tid with
  | none => s
  | some t => cs_touch_extent i (add_to_read_set t i s)

/-- Redirect a read-set reference from the placeholder to its
replacement. -/
def substEid (oldE newE : Nat) (j : Nat) : Nat :=
  if j == oldE then newE else j

/-- The loop `while (!cached->transactions.empty()) {
t->replace_placeholder(*cached, *ret); }`.  `Transaction::replace_placeholder`
itself is modelled from the spec ("their placeholder entries are
rewritten"): every surviving read-set reference to the placeholder is
redirected to the new extent. -/
def replace_placeholder_all (oldE newE : Nat) (s : CacheState) : CacheState :=
  { s with txns := s.txns.map (fun t =>
      { t with readSet := t.readSet.map (substEid oldE newE) }) }

/-- A freshly allocated extent about to be read
(`make_cached_extent_ref<T>(alloc_cache_buf(length))` + `set_paddr` +
`state = CLEAN_PENDING`). -/
def mkPendingExtent (eid offset length : Nat) (ty : extent_types_t) : CachedExtent :=
  ⟨eid, offset, length, ty, .CLEAN_PENDING, false, .null⟩

/-- `Cache::get_extent<T>(offset, length, p_metric_key, init, on_cache)`:
the transaction-agnostic read path with its three branches (miss,
hit-on-placeholder, hit). `epmOk` is the outcome of the EPM read the
branch may submit. -/
def get_extent_core (tid : Option Nat) (ty : extent_types_t)
    (offset length : Nat) (epmOk : Bool) (s : CacheState) :
    Except CacheError Nat × CacheState :=
  match query_cache s offset with
  | none =>
    let e := mkPendingExtent s.nextId offset length ty
    let s1 := { s with store := e :: s.store, index := e.eid :: s.index,
                       nextId := s.nextId + 1 }
    let s2 := on_cache_txn tid e.eid s1
    read_extent_st e.eid epmOk s2
  | some cached =>
    if cached.etype == extent_types_t.RETIRED_PLACEHOLDER then
      let e := mkPendingExtent s.nextId offset length ty
      let s1 := { s with store := e :: s.store,
                         index := e.eid :: s.index.erase cached.eid,
                         nextId := s.nextId + 1 }
      let s2 := on_cache_txn tid e.eid s1
      let s3 := replace_placeholder_all cached.eid e.eid s2
      let s4 := cs_set_state cached.eid .INVALID s3
      read_extent_st e.eid epmOk s4
    else
      (Except.ok cached.eid, on_cache_txn tid cached.eid s)

/-- `Transaction::get_extent`'s result states. -/
inductive txn_get_extent_ret where
  | ABSENT
  | PRESENT (i : Nat)
  | RETIRED (i : Nat)
deriving DecidableEq, Repr

/-- Modelled from the spec: `Transaction::get_extent(addr, &ret)`
(transaction.h is not among the sources): a retired address wins, then
the write set, then the read set, else absent. -/
def txn_lookup (s : CacheState) (t : Txn) (offset : Nat) : txn_get_extent_ret :=
  match t.retiredSet.find? (fun j => extPaddrOf s j == offset) with
  | some j => .RETIRED j
  | none =>
    match t.writeSet.find? (fun j => extPaddrOf s j == offset) with
    | some j => .PRESENT j
    | none =>
      match t.readSet.find? (fun j => extPaddrOf s j == offset) with
      | some j => .PRESENT j
      | none => .ABSENT

/-- The transaction-scoped `Cache::get_extent<T>(t, offset, length,
init)`: a hit in `t` returns that reference after `wait_io`; a `RETIRED`
result fails `assert(result != Transaction::get_extent_ret::RETIRED)`; an
absent one falls through to the cache query path with the
read-set/touch `on_cache` callback. -/
def get_extent_trans (t : Txn) (ty : extent_types_t) (offset length : Nat)
    (epmOk : Bool) (s : CacheState) : Except CacheError Nat × CacheState :=
  match txn_lookup s t offset with
  | .RETIRED _ => (Except.error CacheError.AssertionFailed, s)
  | .PRESENT i => (Except.ok i, s)
  | .ABSENT => get_extent_core (some t.tid) ty offset length epmOk s

/-- `Cache::get_extent_if_cached(t, offset, type)`: returns the
transaction's reference when present or retired on `t`; otherwise queries
the index and returns `none` on a miss or on a `RETIRED_PLACEHOLDER`,
else adds the hit to the read set, touches the LRU and returns it.  No
branch submits an EPM read. -/
def get_extent_if_cached (t : Txn) (offset : Nat) (_ty : extent_types_t)
    (s : CacheState) : Option Nat × CacheState :=
  match txn_lookup s t offset with
  | .RETIRED i => (some i, s)
  | .PRESENT i => (some i, s)
  | .ABSENT =>
    match query_cache s offset with
    | none => (none, s)
    | some c =>
      if c.etype == extent_types_t.RETIRED_PLACEHOLDER then (none, s)
      else (some c.eid, cs_touch_extent c.eid (add_to_read_set t.tid c.eid s))

/-- Concrete state for the C6 witness: one real clean extent at 0x2000,
one placeholder at 0x3000, an unrelated transaction. -/
def s_c6 : CacheState :=
  { s_empty with
      store := [⟨0, 8192, 4096, .OBJECT_DATA_BLOCK, .CLEAN, false, .null⟩,
                ⟨1, 12288, 4096, .RETIRED_PLACEHOLDER, .CLEAN, false, .null⟩],
      index := [0, 1],
      lruList := [0],
      lruContents := 4096,
      txns := [⟨3, [], [], []⟩],
      nextId := 2 }

def t_c6 : Txn := ⟨3, [], [], []⟩

/-- Concrete state for C4: the transaction has retired the extent at
0x1000. -/
def s_c4 : CacheState :=
  { s_empty with
      store := [⟨0, 4096, 4096, .OBJECT_DATA_BLOCK, .CLEAN, false, .null⟩],
      txns := [⟨1, [], [], [0]⟩],
      nextId := 1 }

def t_c4 : Txn := ⟨1, [], [], [0]⟩

/-- Concrete state for C3: a `CLEAN_PENDING` extent at 0x1000 about to be
read. -/
def s_c3 : CacheState :=
  { s_empty with
      store := [⟨0, 4096, 4096, .OBJECT_DATA_BLOCK, .CLEAN_PENDING, false, .null⟩],
      index := [0],
      nextId := 1 }

/-- The placeholder for the C2 witness (a retired address at 0x2000). -/
def ph_c2 : CachedExtent := ⟨0, 8192, 4096, .RETIRED_PLACEHOLDER, .CLEAN, false, .null⟩

/-- Concrete state for C2: the index holds the placeholder and
transaction 7 has it in its read set. -/
def s_c2 : CacheState :=
  { s_empty with store := [ph_c2], index := [0],
                 txns := [⟨7, [0], [], []⟩], nextId := 1 }

/-! ### C5: eviction removes extents from the LRU and the index together

`cached_extent.h` (the refcounting, and the destructor that erases the
extent from its `parent_index`) is not among the sources, so the coupling
of eviction to the index is modelled from the spec: "Evicted extents are
removed from the index simultaneously.  The LRU pins the extent ...;
eviction releases that pin", "The LRU's strong reference is released on
eviction; if a transaction still holds the extent, it lives on but is
absent from the index". -/

/-- Modelled from the spec: evict the extent at the LRU end — unlink it,
subtract its length, erase it from the extent index, and destroy the
object when no transaction still references it. -/
def cs_evict_one (s : CacheState) : CacheState :=
  match s.lruList with
  | [] => s
  | f :: rest =>
    { s with
        lruList := rest,
        lruContents := s.lruContents - extLen s f,
        index := s.index.erase f,
        store :=
          if s.txns.any (fun t =>
              t.readSet.contains f || t.writeSet.contains f ||
                t.retiredSet.contains f)
          then s.store
          else s.store.filter (fun e => !(e.eid == f)) }

/-- The `trim_to_capacity` loop with spec-modelled eviction; the fuel is
the list length, which the loop never exceeds. -/
def cs_trim_evict_go : Nat → CacheState → CacheState
  | 0, s => s
  | fuel + 1, s =>
    if s.lruCapacity < s.lruContents then cs_trim_evict_go fuel (cs_evict_one s)
    else s

def cs_trim_evict (s : CacheState) : CacheState :=
  cs_trim_evict_go s.lruList.length s

/-- `move_to_top` with spec-modelled eviction. -/
def cs_move_to_top_evict (i : Nat) (s : CacheState) : CacheState :=
  let s0 := if i ∈ s.lruList
            then { s with lruList := s.lruList.erase i,
                          lruContents := s.lruContents - extLen s i }
            else s
  cs_trim_evict { s0 with lruList := s0.lruList ++ [i],
                          lruContents := s0.lruContents + extLen s i }

/-- `touch_extent` with spec-modelled eviction. -/
def cs_touch_evict (i : Nat) (s : CacheState) : CacheState :=
  match storeGet s i with
  | some e => if e.is_clean && !e.is_placeholder then cs_move_to_top_evict i s else s
  | none => s

/-- A cold read: the miss path of `get_extent` (allocate `CLEAN_PENDING`,
insert into the index, touch, EPM read, `CLEAN`, latch released), with the
spec-modelled eviction coupling. -/
def read_cold (offset length : Nat) (s : CacheState) : CacheState :=
  match query_cache s offset with
  | some _ => s
  | none =>
    let e : CachedExtent :=
      ⟨s.nextId, offset, length, .OBJECT_DATA_BLOCK, .CLEAN_PENDING, false, .null⟩
    let s1 := { s with store := e :: s.store, index := e.eid :: s.index,
                       nextId := s.nextId + 1 }
    let s2 := cs_touch_evict e.eid s1
    let s3 := cs_set_io_wait e.eid true s2
    let s4 := { s3 with epmReads := (offset, length) :: s3.epmReads }
    cs_set_io_wait e.eid false (cs_set_state e.eid .CLEAN s4)

/-- Concrete over-capacity state for the C5 witness. -/
def s_c5 : CacheState :=
  { s_empty with
      store := [⟨0, 4096, 4096, .OBJECT_DATA_BLOCK, .CLEAN, false, .null⟩,
                ⟨1, 8192, 4096, .OBJECT_DATA_BLOCK, .CLEAN, false, .null⟩],
      index := [0, 1],
      lruList := [0, 1],
      lruContents := 8192,
      lruCapacity := 4096,
      nextId := 2 }

/-! ## Theorems -/

theorem jlt_trans {a b c : journal_seq_t} (h1 : jlt a b = true)
    (h2 : jlt b c = true) : jlt a c = true := by
  cases a <;> cases b <;> cases c <;> simp_all [jlt]
  omega

theorem LRU.trim_go_spec (capacity : Nat) :
    ∀ (l : List CachedExtent) (c : Nat), c = (l.map CachedExtent.length).sum →
      (LRU.trim_go capacity l c).2 = ((LRU.trim_go capacity l c).1.map CachedExtent.length).sum ∧
      (LRU.trim_go capacity l c).2 ≤ capacity ∧
      (LRU.trim_go capacity l c).1.IsSuffix l := by
  intro l
  induction l with
  | nil =>
    intro c hc
    simp [LRU.trim_go] at hc ⊢
    omega
  | cons f r ih =>
    intro c hc
    by_cases h : capacity < c
    · have hrec := ih (c - f.length) (by simp at hc; omega)
      simp only [LRU.trim_go, if_pos h]
      exact ⟨hrec.1, hrec.2.1, hrec.2.2.trans (List.suffix_cons f r)⟩
    · simp only [LRU.trim_go, if_neg h]
      exact ⟨hc, by omega, List.suffix_refl _⟩

theorem LRU.inv_trim {s : LRU} (hnd : s.lru.Nodup)
    (hsum : s.contents = (s.lru.map CachedExtent.length).sum) :
    LRU.inv (LRU.trim_to_capacity s) := by
  have hspec := LRU.trim_go_spec s.capacity s.lru s.contents hsum
  exact ⟨hspec.2.2.sublist.nodup hnd, hspec.1, hspec.2.1⟩

theorem LRU.sum_erase {l : List CachedExtent} {e : CachedExtent} (he : e ∈ l) :
    ((l.erase e).map CachedExtent.length).sum = (l.map CachedExtent.length).sum - e.length := by
  have hperm : List.Perm l (e :: l.erase e) := List.perm_cons_erase he
  have := (hperm.map CachedExtent.length).sum_eq
  simp at this
  omega

theorem LRU.inv_remove {s : LRU} {e : CachedExtent} (h : LRU.inv s) :
    LRU.inv (LRU.remove_from_lru s e) := by
  obtain ⟨hnd, hsum, hcap⟩ := h
  unfold LRU.remove_from_lru
  by_cases he : e ∈ s.lru
  · simp only [if_pos he]
    refine ⟨hnd.erase e, ?_, ?_⟩
    · simp [LRU.sum_erase he, hsum]
    · simp; omega
  · simp only [if_neg he]
    exact ⟨hnd, hsum, hcap⟩

theorem LRU.inv_add {s : LRU} {e : CachedExtent} (h : LRU.inv s) :
    LRU.inv (LRU.add_to_lru s e) := by
  obtain ⟨hnd, hsum, _⟩ := h
  unfold LRU.add_to_lru
  by_cases he : e ∈ s.lru
  · simp only [if_pos he]
    exact LRU.inv_trim hnd hsum
  · simp only [if_neg he]
    refine LRU.inv_trim ?_ ?_
    · simp only [List.nodup_append, List.nodup_cons, List.nodup_nil, and_true,
        List.not_mem_nil, not_false_iff, List.disjoint_singleton]
      exact ⟨hnd, trivial, he⟩
    · simp [hsum]

theorem LRU.inv_move {s : LRU} {e : CachedExtent} (h : LRU.inv s) :
    LRU.inv (LRU.move_to_top s e) := by
  obtain ⟨hnd, hsum, hcap⟩ := h
  unfold LRU.move_to_top
  by_cases he : e ∈ s.lru
  · simp only [if_pos he]
    refine LRU.inv_add ⟨hnd.erase e, ?_, ?_⟩
    · simp [LRU.sum_erase he, hsum]
    · simp; omega
  · simp only [if_neg he]
    exact LRU.inv_add ⟨hnd, hsum, hcap⟩

theorem LRU.inv_clear {s : LRU} (h : LRU.inv s) : LRU.inv (LRU.clear s) := by
  unfold LRU.clear
  generalize s.lru = l
  induction l generalizing s with
  | nil => exact h
  | cons f r ih => exact ih (LRU.inv_remove h)

/-- If the byte counter is already within capacity, trimming is a no-op. -/
theorem LRU.trim_go_le {capacity : Nat} {l : List CachedExtent} {c : Nat}
    (h : c ≤ capacity) : LRU.trim_go capacity l c = (l, c) := by
  cases l with
  | nil => rfl
  | cons f r => simp [LRU.trim_go, Nat.not_lt.mpr h]

/-- Shape of `move_to_top` on a linked extent within capacity: the extent
is unlinked and relinked at the MRU end, leaving the byte counter as it
was. -/
theorem LRU.move_to_top_mem {s : LRU} {e : CachedExtent} (hinv : LRU.inv s)
    (hmem : e ∈ s.lru) :
    LRU.move_to_top s e = ⟨s.capacity, s.contents, s.lru.erase e ++ [e]⟩ := by
  obtain ⟨hnd, hsum, hcap⟩ := hinv
  have hsplit : s.contents = e.length + ((s.lru.erase e).map CachedExtent.length).sum := by
    have hperm : List.Perm s.lru (e :: s.lru.erase e) := List.perm_cons_erase hmem
    have := (hperm.map CachedExtent.length).sum_eq
    simp at this
    omega
  have hne : e ∉ s.lru.erase e := fun hc => absurd ((hnd.mem_erase_iff).mp hc).1 (by simp)
  unfold LRU.move_to_top LRU.add_to_lru
  simp only [if_pos hmem, if_neg hne]
  unfold LRU.trim_to_capacity
  have harith : s.contents - e.length + e.length = s.contents := by omega
  rw [harith, LRU.trim_go_le hcap]

/-- C7: after every public LRU operation, the byte counter equals the sum
of the lengths of the listed extents, and that sum is at most the
configured capacity (spec property P2). -/
theorem C7_lru_bytes_invariant (s : LRU) (e : CachedExtent) (h : LRU.inv s) :
    LRU.inv (LRU.add_to_lru s e) ∧
    LRU.inv (LRU.remove_from_lru s e) ∧
    LRU.inv (LRU.move_to_top s e) ∧
    LRU.inv (LRU.trim_to_capacity s) ∧
    LRU.inv (LRU.clear s) ∧
    LRU.inv (touch_extent s e) ∧
    (∀ capacity, LRU.inv (LRU.init capacity)) := by
  refine ⟨LRU.inv_add h, LRU.inv_remove h, LRU.inv_move h,
    LRU.inv_trim h.1 h.2.1, LRU.inv_clear h, ?_, ?_⟩
  · unfold touch_extent
    by_cases hg : e.is_clean && !e.is_placeholder
    · simp only [if_pos hg]
      exact LRU.inv_move h
    · simp only [if_neg hg]
      exact h
  · intro capacity
    exact ⟨List.nodup_nil, rfl, Nat.zero_le _⟩

theorem C7_lru_bytes_invariant_witness :
    LRU.inv (LRU.add_to_lru ⟨8192, 4096, [ext_a]⟩ ext_b) :=
  (C7_lru_bytes_invariant ⟨8192, 4096, [ext_a]⟩ ext_b (by unfold LRU.inv; decide)).1

/-- C8: touching a clean, non-placeholder extent on the LRU moves it to
the MRU end, and touching twice equals touching once (spec property P8). -/
theorem C8_lru_touch_mru_idempotent (s : LRU) (e : CachedExtent)
    (hinv : LRU.inv s) (hmem : e ∈ s.lru)
    (hc : e.is_clean = true) (hp : e.is_placeholder = false) :
    (touch_extent s e).lru.getLast? = some e ∧
    touch_extent (touch_extent s e) e = touch_extent s e := by
  have hguard : (e.is_clean && !e.is_placeholder) = true := by rw [hc, hp]; rfl
  have htouch : touch_extent s e = LRU.move_to_top s e := by
    unfold touch_extent; rw [if_pos hguard]
  have h1 : LRU.move_to_top s e = ⟨s.capacity, s.contents, s.lru.erase e ++ [e]⟩ :=
    LRU.move_to_top_mem hinv hmem
  have hne : e ∉ s.lru.erase e :=
    fun hcon => absurd ((hinv.1.mem_erase_iff).mp hcon).1 (by simp)
  constructor
  · rw [htouch, h1]
    exact List.getLast?_concat _
  · have hinv' : LRU.inv (LRU.move_to_top s e) := LRU.inv_move hinv
    have hmem' : e ∈ (LRU.move_to_top s e).lru := by
      rw [h1]; simp
    have h2 := LRU.move_to_top_mem hinv' hmem'
    have htouch' : touch_extent (LRU.move_to_top s e) e =
        LRU.move_to_top (LRU.move_to_top s e) e := by
      unfold touch_extent; rw [if_pos hguard]
    rw [htouch, htouch', h2, h1]
    simp only
    rw [List.erase_append_right _ hne]
    simp

/-- On a list in ascending key order, erasing the prefix of keys
`<= trim_to` is the same as keeping exactly the keys `> trim_to`. -/
theorem dropWhile_le_eq_filter (t_ : journal_seq_t) :
    ∀ l : List (journal_seq_t × backref_buf_t),
      l.Pairwise (fun a b => jlt a.1 b.1 = true) →
      l.dropWhile (fun kv => !(jlt t_ kv.1)) = l.filter (fun kv => jlt t_ kv.1) := by
  intro l
  induction l with
  | nil => intro _; rfl
  | cons kv rest ih =>
    intro hpw
    obtain ⟨hhead, htail⟩ := List.pairwise_cons.mp hpw
    by_cases hk : jlt t_ kv.1 = true
    · have hfilter : rest.filter (fun kv2 => jlt t_ kv2.1) = rest :=
        List.filter_eq_self.mpr (fun b hb => jlt_trans hk (hhead b hb))
      simp [List.dropWhile_cons, List.filter_cons, hk, hfilter]
    · have hk' : jlt t_ kv.1 = false := by
        cases h : jlt t_ kv.1
        · rfl
        · exact absurd h hk
      simp [List.dropWhile_cons, List.filter_cons, hk', ih htail]

/-- C1: `trim_backref_bufs(s)` removes exactly the seq-keyed batches with
key `<= s` (keeping each batch with key `> s` untouched, and nothing
else), and asserts precisely when the non-empty buffer's maximum key is
`< s`.  The maximum key of the ascending map is its last binding. -/
theorem C1_trim_backref_bufs (s : CacheState) (bc : backref_cache_t)
    (kv : journal_seq_t × backref_buf_t) (t_ : journal_seq_t)
    (hb : s.backref_buffer = some bc)
    (hlast : bc.backrefs_by_seq.getLast? = some kv)
    (hsorted : bc.backrefs_by_seq.Pairwise (fun a b => jlt a.1 b.1 = true)) :
    (jlt kv.1 t_ = true → trim_backref_bufs t_ s = none) ∧
    (jlt kv.1 t_ = false →
      trim_backref_bufs t_ s = some { s with backref_buffer := some (backref_cache_t.mk
        (bc.backrefs_by_seq.filter (fun kv2 => jlt t_ kv2.1))) } ∧
      ∀ kv2, kv2 ∈ bc.backrefs_by_seq.filter (fun kv2 => jlt t_ kv2.1) ↔
        kv2 ∈ bc.backrefs_by_seq ∧ jlt t_ kv2.1 = true) := by
  constructor
  · intro hlt
    unfold trim_backref_bufs
    rw [hb]; dsimp only
    rw [hlast]; dsimp only
    rw [if_pos hlt]
  · intro hge
    refine ⟨?_, fun kv2 => List.mem_filter⟩
    unfold trim_backref_bufs
    rw [hb]; dsimp only
    rw [hlast]; dsimp only
    rw [if_neg (by rw [hge]; exact Bool.false_ne_true),
      dropWhile_le_eq_filter t_ _ hsorted]

theorem C1_trim_backref_bufs_witness :
    trim_backref_bufs (journal_seq_t.seq 20) s_backref =
      some { s_backref with backref_buffer := some ⟨[
        (.seq 30, ⟨[⟨12288, 3, 4096, .OBJECT_DATA_BLOCK, .seq 30⟩]⟩)]⟩ } :=
  ((C1_trim_backref_bufs s_backref _ _ (journal_seq_t.seq 20) rfl rfl
    (by decide)).2 (by decide)).1

/-- C10: trimming with an absent back-reference buffer, or with a buffer
holding no batches, leaves the state unchanged and does not assert. -/
theorem C10_trim_backref_bufs_empty (s : CacheState) (t_ : journal_seq_t) :
    (s.backref_buffer = none → trim_backref_bufs t_ s = some s) ∧
    (∀ bc, s.backref_buffer = some bc → bc.backrefs_by_seq = [] →
      trim_backref_bufs t_ s = some s) := by
  constructor
  · intro h
    unfold trim_backref_bufs
    rw [h]
  · intro bc hb hempty
    unfold trim_backref_bufs
    rw [hb]
    simp [hempty]

theorem C10_trim_backref_bufs_empty_witness :
    trim_backref_bufs (journal_seq_t.seq 5) s_empty = some s_empty :=
  (C10_trim_backref_bufs_empty s_empty (journal_seq_t.seq 5)).1 rfl

/-- C9 counterexample: a non-empty dirty list on which
`get_oldest_dirty_from()` still returns `None`, refuting "`None` exactly
when the dirty list is empty". -/
theorem C9_counterexample_null_head :
    get_oldest_dirty_from s_dirty_null = none ∧ s_dirty_null.dirty ≠ [] := by
  constructor
  · rfl
  · decide

/-- C9 (amended): `get_oldest_dirty_from()` returns `None` iff the dirty
list is empty or its head's `dirty_from` is `JOURNAL_SEQ_NULL`; with a
non-empty head of non-null `dirty_from` it returns that `dirty_from`. -/
theorem C9_get_oldest_dirty_from (s : CacheState) :
    (get_oldest_dirty_from s = none ↔
      s.dirty = [] ∨
        ∃ e l, s.dirty = e :: l ∧ e.dirty_from = journal_seq_t.null) ∧
    (∀ e l, s.dirty = e :: l → e.dirty_from ≠ journal_seq_t.null →
      get_oldest_dirty_from s = some e.dirty_from) := by
  unfold get_oldest_dirty_from
  cases hd : s.dirty with
  | nil => simp
  | cons e l =>
    by_cases hn : e.dirty_from = journal_seq_t.null
    · simp [hn]
    · simp [hn]

theorem C9_get_oldest_dirty_from_witness :
    get_oldest_dirty_from
      { s_empty with dirty := [⟨5, 0, 4096, .ROOT, .DIRTY, false, .seq 42⟩] } =
      some (journal_seq_t.seq 42) :=
  (C9_get_oldest_dirty_from _).2 _ [] rfl (by decide)

theorem C8_lru_touch_mru_idempotent_witness :
    (touch_extent ⟨8192, 8192, [ext_a, ext_b]⟩ ext_a).lru.getLast? = some ext_a ∧
    touch_extent (touch_extent ⟨8192, 8192, [ext_a, ext_b]⟩ ext_a) ext_a =
      touch_extent ⟨8192, 8192, [ext_a, ext_b]⟩ ext_a :=
  C8_lru_touch_mru_idempotent ⟨8192, 8192, [ext_a, ext_b]⟩ ext_a
    (by unfold LRU.inv; decide) (by decide) (by decide) (by decide)

/-! ### Projection lemmas for the state-updating helpers -/

theorem findEid_cons_self {x : CachedExtent} {l : List CachedExtent} {i : Nat}
    (h : x.eid = i) : findEid (x :: l) i = some x :=
  List.find?_cons_of_pos _ (by simp [h])

theorem findEid_cons_ne {x : CachedExtent} {l : List CachedExtent} {i : Nat}
    (h : x.eid ≠ i) : findEid (x :: l) i = findEid l i :=
  List.find?_cons_of_neg _ (by simp [h])

theorem findEid_map {f : CachedExtent → CachedExtent}
    (hf : ∀ x, (f x).eid = x.eid) (l : List CachedExtent) (i : Nat) :
    findEid (l.map f) i = (findEid l i).map f := by
  induction l with
  | nil => rfl
  | cons x xs ih =>
    by_cases h : x.eid = i
    · rw [List.map_cons, findEid_cons_self (by rw [hf x]; exact h),
        findEid_cons_self h]
      rfl
    · rw [List.map_cons, findEid_cons_ne (by rw [hf x]; exact h),
        findEid_cons_ne h, ih]

theorem findEid_mem_nodup {l : List CachedExtent} {c : CachedExtent}
    (hnd : (l.map CachedExtent.eid).Nodup) (hm : c ∈ l) :
    findEid l c.eid = some c := by
  induction l with
  | nil => cases hm
  | cons x xs ih =>
    rw [List.map_cons, List.nodup_cons] at hnd
    rcases List.mem_cons.mp hm with rfl | hm'
    · exact findEid_cons_self rfl
    · by_cases h : x.eid = c.eid
      · exact absurd (h ▸ List.mem_map_of_mem CachedExtent.eid hm') hnd.1
      · rw [findEid_cons_ne h]
        exact ih hnd.2 hm'

theorem query_cache_go_mem {s : CacheState} {offset : Nat} {c : CachedExtent} :
    ∀ {l : List Nat}, query_cache_go s offset l = some c →
      c ∈ s.store ∧ c.paddr = offset := by
  intro l
  induction l with
  | nil => intro h; cases h
  | cons i rest ih =>
    intro h
    unfold query_cache_go at h
    revert h
    cases hsg : storeGet s i with
    | none => exact ih
    | some e =>
      dsimp only
      by_cases hpa : (e.paddr == offset) = true
      · rw [if_pos hpa]
        intro h
        cases h
        exact ⟨List.mem_of_find?_eq_some hsg, by simpa using hpa⟩
      · rw [if_neg hpa]
        exact ih

theorem query_cache_mem {s : CacheState} {offset : Nat} {c : CachedExtent}
    (h : query_cache s offset = some c) : c ∈ s.store ∧ c.paddr = offset :=
  query_cache_go_mem h

theorem cs_move_to_top_epm (i : Nat) (s : CacheState) :
    (cs_move_to_top i s).epmReads = s.epmReads := rfl

theorem cs_move_to_top_store (i : Nat) (s : CacheState) :
    (cs_move_to_top i s).store = s.store := rfl

theorem cs_move_to_top_index (i : Nat) (s : CacheState) :
    (cs_move_to_top i s).index = s.index := rfl

theorem cs_move_to_top_txns (i : Nat) (s : CacheState) :
    (cs_move_to_top i s).txns = s.txns := rfl

theorem cs_touch_extent_store (i : Nat) (s : CacheState) :
    (cs_touch_extent i s).store = s.store := by
  unfold cs_touch_extent
  cases storeGet s i with
  | none => rfl
  | some e =>
    dsimp only
    by_cases h : e.is_clean && !e.is_placeholder
    · rw [if_pos h]; rfl
    · rw [if_neg h]

theorem cs_touch_extent_index (i : Nat) (s : CacheState) :
    (cs_touch_extent i s).index = s.index := by
  unfold cs_touch_extent
  cases storeGet s i with
  | none => rfl
  | some e =>
    dsimp only
    by_cases h : e.is_clean && !e.is_placeholder
    · rw [if_pos h]; rfl
    · rw [if_neg h]

theorem cs_touch_extent_txns (i : Nat) (s : CacheState) :
    (cs_touch_extent i s).txns = s.txns := by
  unfold cs_touch_extent
  cases storeGet s i with
  | none => rfl
  | some e =>
    dsimp only
    by_cases h : e.is_clean && !e.is_placeholder
    · rw [if_pos h]; rfl
    · rw [if_neg h]

theorem on_cache_txn_store (tid : Option Nat) (i : Nat) (s : CacheState) :
    (on_cache_txn tid i s).store = s.store := by
  cases tid with
  | none => rfl
  | some t => rw [on_cache_txn, cs_touch_extent_store]; rfl

theorem on_cache_txn_index (tid : Option Nat) (i : Nat) (s : CacheState) :
    (on_cache_txn tid i s).index = s.index := by
  cases tid with
  | none => rfl
  | some t => rw [on_cache_txn, cs_touch_extent_index]; rfl

theorem cs_touch_extent_epm (i : Nat) (s : CacheState) :
    (cs_touch_extent i s).epmReads = s.epmReads := by
  unfold cs_touch_extent
  cases storeGet s i with
  | none => rfl
  | some e =>
    dsimp only
    by_cases h : e.is_clean && !e.is_placeholder
    · rw [if_pos h]; rfl
    · rw [if_neg h]

theorem on_cache_txn_epm (tid : Option Nat) (i : Nat) (s : CacheState) :
    (on_cache_txn tid i s).epmReads = s.epmReads := by
  cases tid with
  | none => rfl
  | some t => rw [on_cache_txn, cs_touch_extent_epm]; rfl

/-- C6: `get_extent_if_cached` never submits an EPM read, and — when the
transaction does not already know the address — it returns `None` exactly
when the index misses or holds a `RETIRED_PLACEHOLDER` at that address. -/
theorem C6_get_extent_if_cached (s : CacheState) (t : Txn) (offset : Nat)
    (ty : extent_types_t) :
    ((get_extent_if_cached t offset ty s).2.epmReads = s.epmReads) ∧
    (txn_lookup s t offset = .ABSENT →
      ((get_extent_if_cached t offset ty s).1 = none ↔
        query_cache s offset = none ∨
          ∃ c, query_cache s offset = some c ∧
            c.etype = extent_types_t.RETIRED_PLACEHOLDER)) := by
  unfold get_extent_if_cached
  cases hl : txn_lookup s t offset with
  | RETIRED i => exact ⟨rfl, fun hc => nomatch hc⟩
  | PRESENT i => exact ⟨rfl, fun hc => nomatch hc⟩
  | ABSENT =>
    cases hq : query_cache s offset with
    | none => exact ⟨rfl, fun _ => by simp⟩
    | some c =>
      dsimp only
      by_cases hp : c.etype = extent_types_t.RETIRED_PLACEHOLDER
      · rw [if_pos (by simp [hp])]
        exact ⟨rfl, fun _ => by simp [hp]⟩
      · rw [if_neg (by simp [hp])]
        refine ⟨?_, fun _ => ?_⟩
        · rw [cs_touch_extent_epm]
          rfl
        · constructor
          · intro hcon
            cases hcon
          · intro hcon
            rcases hcon with hcon | ⟨c', hc', hp'⟩
            · cases hcon
            · cases hc'
              exact absurd hp' hp

theorem C6_get_extent_if_cached_witness :
    ((get_extent_if_cached t_c6 12288 .OBJECT_DATA_BLOCK s_c6).1 = none ↔
      query_cache s_c6 12288 = none ∨
        ∃ c, query_cache s_c6 12288 = some c ∧
          c.etype = extent_types_t.RETIRED_PLACEHOLDER) ∧
    (get_extent_if_cached t_c6 12288 .OBJECT_DATA_BLOCK s_c6).2.epmReads =
      s_c6.epmReads :=
  ⟨(C6_get_extent_if_cached s_c6 t_c6 12288 .OBJECT_DATA_BLOCK).2 (by decide),
   (C6_get_extent_if_cached s_c6 t_c6 12288 .OBJECT_DATA_BLOCK).1⟩

/-- C4 (amended): when the transaction itself has retired the requested
address, the transaction-scoped `get_extent` fails the debug assertion
`assert(result != Transaction::get_extent_ret::RETIRED)` — the source has
no `RetiredInTxn` error at all (its documented precondition is "t *must
not* have retired offset"). -/
theorem C4_retired_addr_asserts (s : CacheState) (t : Txn)
    (ty : extent_types_t) (offset length : Nat) (epmOk : Bool) (i : Nat)
    (h : txn_lookup s t offset = .RETIRED i) :
    get_extent_trans t ty offset length epmOk s =
      (Except.error CacheError.AssertionFailed, s) := by
  unfold get_extent_trans
  rw [h]

/-- C4 counterexample: at a concrete state where the transaction retired
0x1000, `get_extent(t, 0x1000, 4096)` aborts on the assertion (debug
semantics) rather than failing with a `RetiredInTxn` error — the claim's
"fails with the RetiredInTxn error ... and does not crash" is false. -/
theorem C4_counterexample_assert_abort :
    txn_lookup s_c4 t_c4 4096 = .RETIRED 0 ∧
    (get_extent_trans t_c4 .OBJECT_DATA_BLOCK 4096 4096 true s_c4).1 =
      Except.error CacheError.AssertionFailed := by
  exact ⟨rfl, rfl⟩

theorem C4_retired_addr_asserts_witness :
    get_extent_trans t_c4 .OBJECT_DATA_BLOCK 4096 4096 true s_c4 =
      (Except.error CacheError.AssertionFailed, s_c4) :=
  C4_retired_addr_asserts s_c4 t_c4 .OBJECT_DATA_BLOCK 4096 4096 true 0 rfl

/-- C3 (code bug): when the EPM read fails, `read_extent` propagates
`IoError` unchanged and leaves the extent `CLEAN_PENDING`, but the I/O
latch taken by `set_io_wait()` is never released — no `complete_io()` (nor
invalidation) exists on the error path, so waiters would never resume. -/
theorem C3_io_error_leaves_latch_held :
    (read_extent_st 0 false s_c3).1 = Except.error CacheError.IoError ∧
    storeGet (read_extent_st 0 false s_c3).2 0 =
      some ⟨0, 4096, 4096, .OBJECT_DATA_BLOCK, .CLEAN_PENDING, true, .null⟩ ∧
    (read_extent_st 0 false s_c3).2.epmReads = [(4096, 4096)] := by
  exact ⟨rfl, rfl, rfl⟩

/-! ### C2: promotion of a `RETIRED_PLACEHOLDER` on a read hit -/

theorem updState_eid (i : Nat) (st : extent_state_t) (e : CachedExtent) :
    (updState i st e).eid = e.eid := by
  unfold updState; split <;> rfl

theorem updIoWait_eid (i : Nat) (b : Bool) (e : CachedExtent) :
    (updIoWait i b e).eid = e.eid := by
  unfold updIoWait; split <;> rfl

theorem updState_ne {i : Nat} {e : CachedExtent} (st : extent_state_t)
    (h : e.eid ≠ i) : updState i st e = e := by
  unfold updState; rw [if_neg (by simp [h])]

theorem updState_eq {i : Nat} {e : CachedExtent} (st : extent_state_t)
    (h : e.eid = i) : updState i st e = { e with state := st } := by
  unfold updState; rw [if_pos (by simp [h])]

theorem updIoWait_ne {i : Nat} {e : CachedExtent} (b : Bool)
    (h : e.eid ≠ i) : updIoWait i b e = e := by
  unfold updIoWait; rw [if_neg (by simp [h])]

theorem updIoWait_eq {i : Nat} {e : CachedExtent} (b : Bool)
    (h : e.eid = i) : updIoWait i b e = { e with io_wait := b } := by
  unfold updIoWait; rw [if_pos (by simp [h])]

theorem substEid_ne_old {oldE newE : Nat} (hnew : newE ≠ oldE) (j : Nat) :
    substEid oldE newE j ≠ oldE := by
  unfold substEid
  by_cases h : (j == oldE) = true
  · rw [if_pos h]; exact hnew
  · rw [if_neg h]; simpa using h

theorem substEid_self (oldE newE : Nat) : substEid oldE newE oldE = newE := by
  unfold substEid; rw [if_pos (by simp)]

theorem cs_set_state_store (i : Nat) (st : extent_state_t) (s : CacheState) :
    (cs_set_state i st s).store = s.store.map (updState i st) := rfl

theorem cs_set_state_index (i : Nat) (st : extent_state_t) (s : CacheState) :
    (cs_set_state i st s).index = s.index := rfl

theorem cs_set_state_txns (i : Nat) (st : extent_state_t) (s : CacheState) :
    (cs_set_state i st s).txns = s.txns := rfl

theorem cs_set_state_epm (i : Nat) (st : extent_state_t) (s : CacheState) :
    (cs_set_state i st s).epmReads = s.epmReads := rfl

theorem cs_set_io_wait_store (i : Nat) (b : Bool) (s : CacheState) :
    (cs_set_io_wait i b s).store = s.store.map (updIoWait i b) := rfl

theorem cs_set_io_wait_index (i : Nat) (b : Bool) (s : CacheState) :
    (cs_set_io_wait i b s).index = s.index := rfl

theorem cs_set_io_wait_txns (i : Nat) (b : Bool) (s : CacheState) :
    (cs_set_io_wait i b s).txns = s.txns := rfl

theorem cs_set_io_wait_epm (i : Nat) (b : Bool) (s : CacheState) :
    (cs_set_io_wait i b s).epmReads = s.epmReads := rfl

theorem replace_placeholder_all_store (a b : Nat) (s : CacheState) :
    (replace_placeholder_all a b s).store = s.store := rfl

theorem replace_placeholder_all_index (a b : Nat) (s : CacheState) :
    (replace_placeholder_all a b s).index = s.index := rfl

theorem replace_placeholder_all_epm (a b : Nat) (s : CacheState) :
    (replace_placeholder_all a b s).epmReads = s.epmReads := rfl

theorem replace_placeholder_all_txns (a b : Nat) (s : CacheState) :
    (replace_placeholder_all a b s).txns =
      s.txns.map (fun t => { t with readSet := t.readSet.map (substEid a b) }) := rfl

theorem add_to_read_set_txns (tid i : Nat) (s : CacheState) :
    (add_to_read_set tid i s).txns =
      s.txns.map (fun t =>
        if t.tid == tid then { t with readSet := i :: t.readSet } else t) := rfl

/-- Successful-read shape of `read_extent`: latch taken, EPM read logged,
state set `CLEAN`, latch released. -/
theorem read_extent_st_ok {s : CacheState} {i : Nat} {e : CachedExtent}
    (hsg : storeGet s i = some e) (hst : e.state = extent_state_t.CLEAN_PENDING) :
    read_extent_st i true s =
      (Except.ok i,
       cs_set_io_wait i false (cs_set_state i .CLEAN
         { cs_set_io_wait i true s with
             epmReads := (e.paddr, e.length) :: s.epmReads })) := by
  unfold read_extent_st
  rw [hsg]
  dsimp only
  rw [if_pos (by simp [hst]), if_pos rfl]
  rfl

/-- C2: a `get_extent` whose index lookup hits a `RETIRED_PLACEHOLDER`
allocates a real extent of the requested type at the same paddr, replaces
the placeholder in the index (new extent in, placeholder out), rewrites
every transaction's read-set reference to the placeholder onto the new
extent, marks the placeholder `INVALID`, and proceeds as in the miss case:
the EPM read for `(offset, length)` is submitted and the returned extent
ends up `CLEAN` with its latch released. -/
theorem C2_placeholder_promotion (s : CacheState) (tid : Option Nat)
    (ty : extent_types_t) (offset length : Nat) (cached : CachedExtent)
    (hnd : (s.store.map CachedExtent.eid).Nodup)
    (hfresh : ∀ e ∈ s.store, e.eid < s.nextId)
    (hidxnd : s.index.Nodup)
    (hq : query_cache s offset = some cached)
    (hp : cached.etype = extent_types_t.RETIRED_PLACEHOLDER) :
    (get_extent_core tid ty offset length true s).1 = Except.ok s.nextId ∧
    storeGet (get_extent_core tid ty offset length true s).2 s.nextId =
      some ⟨s.nextId, offset, length, ty, .CLEAN, false, .null⟩ ∧
    s.nextId ∈ (get_extent_core tid ty offset length true s).2.index ∧
    cached.eid ∉ (get_extent_core tid ty offset length true s).2.index ∧
    storeGet (get_extent_core tid ty offset length true s).2 cached.eid =
      some { cached with state := .INVALID } ∧
    (∀ t' ∈ (get_extent_core tid ty offset length true s).2.txns,
      cached.eid ∉ t'.readSet) ∧
    (∀ t ∈ s.txns, cached.eid ∈ t.readSet →
      ∃ t' ∈ (get_extent_core tid ty offset length true s).2.txns,
        t'.tid = t.tid ∧ s.nextId ∈ t'.readSet) ∧
    (get_extent_core tid ty offset length true s).2.epmReads =
      (offset, length) :: s.epmReads := by
  have hmem : cached ∈ s.store := (query_cache_mem hq).1
  have hne : cached.eid ≠ s.nextId := Nat.ne_of_lt (hfresh cached hmem)
  have hbeq : (cached.etype == extent_types_t.RETIRED_PLACEHOLDER) = true := by
    simp [hp]
  have heval : get_extent_core tid ty offset length true s =
      read_extent_st s.nextId true
        (cs_set_state cached.eid .INVALID
          (replace_placeholder_all cached.eid s.nextId
            (on_cache_txn tid s.nextId
              { s with
                  store := ⟨s.nextId, offset, length, ty, .CLEAN_PENDING, false,
                    .null⟩ :: s.store,
                  index := s.nextId :: s.index.erase cached.eid,
                  nextId := s.nextId + 1 }))) := by
    unfold get_extent_core
    rw [hq]
    dsimp only [mkPendingExtent]
    rw [if_pos hbeq]
  have hsg4 :
      storeGet
        (cs_set_state cached.eid .INVALID
          (replace_placeholder_all cached.eid s.nextId
            (on_cache_txn tid s.nextId
              { s with
                  store := ⟨s.nextId, offset, length, ty, .CLEAN_PENDING, false,
                    .null⟩ :: s.store,
                  index := s.nextId :: s.index.erase cached.eid,
                  nextId := s.nextId + 1 }))) s.nextId =
      some ⟨s.nextId, offset, length, ty, .CLEAN_PENDING, false, .null⟩ := by
    show findEid _ s.nextId = _
    simp only [cs_set_state_store, replace_placeholder_all_store, on_cache_txn_store]
    rw [findEid_map (updState_eid cached.eid .INVALID), findEid_cons_self rfl]
    simp only [Option.map_some']
    simp [updState, Ne.symm hne]
  have hfin := heval.trans (read_extent_st_ok hsg4 rfl)
  rw [hfin]
  dsimp only
  refine ⟨rfl, ?_, ?_, ?_, ?_, ?_, ?_, ?_⟩
  · -- the new extent is CLEAN with the latch released
    show findEid _ s.nextId = _
    simp only [cs_set_io_wait_store, cs_set_state_store,
      replace_placeholder_all_store, on_cache_txn_store]
    rw [findEid_map (updIoWait_eid s.nextId false),
      findEid_map (updState_eid s.nextId .CLEAN),
      findEid_map (updIoWait_eid s.nextId true),
      findEid_map (updState_eid cached.eid .INVALID),
      findEid_cons_self rfl]
    simp only [Option.map_some']
    simp [updState, updIoWait, Ne.symm hne]
  · -- the new extent is in the index
    simp only [cs_set_io_wait_index, cs_set_state_index,
      replace_placeholder_all_index, on_cache_txn_index]
    exact List.mem_cons_self _ _
  · -- the placeholder is out of the index
    simp only [cs_set_io_wait_index, cs_set_state_index,
      replace_placeholder_all_index, on_cache_txn_index]
    intro hc
    rcases List.mem_cons.mp hc with hc | hc
    · exact hne hc
    · exact absurd ((hidxnd.mem_erase_iff).mp hc).1 (by simp)
  · -- the placeholder is INVALID
    show findEid _ cached.eid = _
    simp only [cs_set_io_wait_store, cs_set_state_store,
      replace_placeholder_all_store, on_cache_txn_store]
    rw [findEid_map (updIoWait_eid s.nextId false),
      findEid_map (updState_eid s.nextId .CLEAN),
      findEid_map (updIoWait_eid s.nextId true),
      findEid_map (updState_eid cached.eid .INVALID),
      findEid_cons_ne (Ne.symm hne), findEid_mem_nodup hnd hmem]
    simp only [Option.map_some']
    simp [updState, updIoWait, hne]
  · -- no transaction still references the placeholder
    simp only [cs_set_io_wait_txns, cs_set_state_txns,
      replace_placeholder_all_txns]
    intro t' ht' hc
    rcases List.mem_map.mp ht' with ⟨u, _, rfl⟩
    rcases List.mem_map.mp hc with ⟨j, _, hj⟩
    exact substEid_ne_old (Ne.symm hne) j hj
  · -- every transaction that held the placeholder now holds the new extent
    simp only [cs_set_io_wait_txns, cs_set_state_txns,
      replace_placeholder_all_txns]
    intro t ht hold
    obtain ⟨F, hFtxns, hFtid, hFsub⟩ :
        ∃ F : Txn → Txn,
          (on_cache_txn tid s.nextId
            { s with
                store := ⟨s.nextId, offset, length, ty, .CLEAN_PENDING, false,
                  .null⟩ :: s.store,
                index := s.nextId :: s.index.erase cached.eid,
                nextId := s.nextId + 1 }).txns = s.txns.map F ∧
          (∀ u, (F u).tid = u.tid) ∧
          (∀ u j, j ∈ u.readSet → j ∈ (F u).readSet) := by
      cases tid with
      | none => exact ⟨id, by simp [on_cache_txn], fun u => rfl, fun u j hj => hj⟩
      | some tt =>
        refine ⟨fun u => if u.tid == tt then
            { u with readSet := s.nextId :: u.readSet } else u, ?_, ?_, ?_⟩
        · show (cs_touch_extent s.nextId (add_to_read_set tt s.nextId _)).txns = _
          rw [cs_touch_extent_txns, add_to_read_set_txns]
        · intro u; dsimp only; split <;> rfl
        · intro u j hj; dsimp only; split
          · exact List.mem_cons_of_mem _ hj
          · exact hj
    rw [hFtxns]
    refine ⟨{ F t with readSet := (F t).readSet.map (substEid cached.eid s.nextId) },
      List.mem_map.mpr ⟨F t, List.mem_map_of_mem F ht, rfl⟩, hFtid t, ?_⟩
    exact List.mem_map.mpr ⟨cached.eid, hFsub t cached.eid hold,
      substEid_self cached.eid s.nextId⟩
  · -- the EPM read for (offset, length) was submitted to a fresh buffer
    simp only [cs_set_io_wait_epm, cs_set_state_epm,
      replace_placeholder_all_epm, on_cache_txn_epm]

theorem C2_placeholder_promotion_witness :
    (get_extent_core (some 7) .OBJECT_DATA_BLOCK 8192 4096 true s_c2).1 =
      Except.ok 1 ∧
    storeGet (get_extent_core (some 7) .OBJECT_DATA_BLOCK 8192 4096 true s_c2).2 1 =
      some ⟨1, 8192, 4096, .OBJECT_DATA_BLOCK, .CLEAN, false, .null⟩ ∧
    1 ∈ (get_extent_core (some 7) .OBJECT_DATA_BLOCK 8192 4096 true s_c2).2.index ∧
    ph_c2.eid ∉
      (get_extent_core (some 7) .OBJECT_DATA_BLOCK 8192 4096 true s_c2).2.index ∧
    storeGet (get_extent_core (some 7) .OBJECT_DATA_BLOCK 8192 4096 true s_c2).2
      ph_c2.eid = some { ph_c2 with state := .INVALID } ∧
    (∀ t' ∈ (get_extent_core (some 7) .OBJECT_DATA_BLOCK 8192 4096 true s_c2).2.txns,
      ph_c2.eid ∉ t'.readSet) ∧
    (∀ t ∈ s_c2.txns, ph_c2.eid ∈ t.readSet →
      ∃ t' ∈ (get_extent_core (some 7) .OBJECT_DATA_BLOCK 8192 4096 true s_c2).2.txns,
        t'.tid = t.tid ∧ 1 ∈ t'.readSet) ∧
    (get_extent_core (some 7) .OBJECT_DATA_BLOCK 8192 4096 true s_c2).2.epmReads =
      (8192, 4096) :: s_c2.epmReads :=
  C2_placeholder_promotion s_c2 (some 7) .OBJECT_DATA_BLOCK 8192 4096 ph_c2
    (by decide) (by decide) (by decide) (by decide) rfl

theorem cs_trim_evict_go_stays_out :
    ∀ (fuel : Nat) (s : CacheState) (i : Nat),
      i ∉ s.lruList → i ∉ s.index →
      i ∉ (cs_trim_evict_go fuel s).lruList ∧ i ∉ (cs_trim_evict_go fuel s).index := by
  intro fuel
  induction fuel with
  | zero => exact fun s i h1 h2 => ⟨h1, h2⟩
  | succ fuel ih =>
    intro s i h1 h2
    simp only [cs_trim_evict_go]
    by_cases hcap : s.lruCapacity < s.lruContents
    · rw [if_pos hcap]
      refine ih (cs_evict_one s) i ?_ ?_
      · unfold cs_evict_one
        cases hl : s.lruList with
        | nil => dsimp only; exact hl ▸ h1
        | cons f rest =>
          dsimp only
          exact fun hc => h1 (by rw [hl]; exact List.mem_cons_of_mem f hc)
      · unfold cs_evict_one
        cases hl : s.lruList with
        | nil => dsimp only; exact h2
        | cons f rest =>
          dsimp only
          exact fun hc => h2 (List.mem_of_mem_erase hc)
    · rw [if_neg hcap]
      exact ⟨h1, h2⟩

theorem cs_trim_evict_go_evicted_out_of_index :
    ∀ (fuel : Nat) (s : CacheState) (i : Nat),
      s.lruList.Nodup → s.index.Nodup → i ∈ s.lruList →
      i ∉ (cs_trim_evict_go fuel s).lruList →
      i ∉ (cs_trim_evict_go fuel s).index := by
  intro fuel
  induction fuel with
  | zero => exact fun s i _ _ hm hout => absurd hm hout
  | succ fuel ih =>
    intro s i hndl hndi hm hout
    simp only [cs_trim_evict_go] at hout ⊢
    by_cases hcap : s.lruCapacity < s.lruContents
    · rw [if_pos hcap] at hout ⊢
      cases hl : s.lruList with
      | nil => rw [hl] at hm; cases hm
      | cons f rest =>
        by_cases hif : i = f
        · subst hif
          have h1 : i ∉ (cs_evict_one s).lruList := by
            unfold cs_evict_one
            rw [hl]
            dsimp only
            rw [hl] at hndl
            exact (List.nodup_cons.mp hndl).1
          have h2 : i ∉ (cs_evict_one s).index := by
            unfold cs_evict_one
            rw [hl]
            dsimp only
            intro hc
            exact absurd ((hndi.mem_erase_iff).mp hc).1 (by simp)
          exact (cs_trim_evict_go_stays_out fuel (cs_evict_one s) i h1 h2).2
        · have hlru' : (cs_evict_one s).lruList = rest := by
            unfold cs_evict_one; rw [hl]
          have hidx' : (cs_evict_one s).index = s.index.erase f := by
            unfold cs_evict_one; rw [hl]
          refine ih (cs_evict_one s) i ?_ ?_ ?_ hout
          · rw [hlru']
            rw [hl] at hndl
            exact (List.nodup_cons.mp hndl).2
          · rw [hidx']
            exact hndi.erase f
          · rw [hlru']
            rw [hl] at hm
            rcases List.mem_cons.mp hm with hc | hc
            · exact absurd hc hif
            · exact hc
    · rw [if_neg hcap] at hout ⊢
      exact absurd hm hout

/-- C5: an extent evicted by the capacity trim leaves the LRU and the
extent index together; in particular reading 4 KiB extents at 0x1000 then
0x2000 under a 4 KiB capacity leaves only the 0x2000 extent, in both the
index and the LRU, with `LRU.bytes() == 4096`. -/
theorem C5_eviction_removes_from_index :
    (∀ (s : CacheState) (i : Nat), s.lruList.Nodup → s.index.Nodup →
      i ∈ s.lruList → i ∉ (cs_trim_evict s).lruList →
      i ∉ (cs_trim_evict s).index) ∧
    ((read_cold 8192 4096 (read_cold 4096 4096
        { s_empty with lruCapacity := 4096 })).index = [1] ∧
     (read_cold 8192 4096 (read_cold 4096 4096
        { s_empty with lruCapacity := 4096 })).lruList = [1] ∧
     (read_cold 8192 4096 (read_cold 4096 4096
        { s_empty with lruCapacity := 4096 })).lruContents = 4096 ∧
     storeGet (read_cold 8192 4096 (read_cold 4096 4096
        { s_empty with lruCapacity := 4096 })) 1 =
       some ⟨1, 8192, 4096, .OBJECT_DATA_BLOCK, .CLEAN, false, .null⟩ ∧
     storeGet (read_cold 8192 4096 (read_cold 4096 4096
        { s_empty with lruCapacity := 4096 })) 0 = none) := by
  constructor
  · exact fun s i h1 h2 h3 h4 =>
      cs_trim_evict_go_evicted_out_of_index s.lruList.length s i h1 h2 h3 h4
  · exact ⟨by decide, by decide, by decide, by decide, by decide⟩

theorem C5_eviction_removes_from_index_witness :
    0 ∉ (cs_trim_evict s_c5).index :=
  C5_eviction_removes_from_index.1 s_c5 0
    (by decide) (by decide) (by decide) (by decide)

end Seastore
